import Mathlib

/-!
# Verification of the Jiki streaming tool-call orchestration engine

Shallow embedding, in Lean 4, of the pure core of the `jiki` repository:

* `src/jiki/utils.py` — `repair_json`, `validate_tool_arguments`,
  `categorize_error`, `clean_output`;
* `src/jiki/utils/context.py` — `trim_context`;
* `src/jiki/utils/parsing.py` — `extract_tool_call`;
* `src/jiki/utils/cleaning.py` — `clean_output` (module-level variant);
* `src/jiki/orchestrator.py` — the argument-extraction / validation /
  dispatch path of `JikiOrchestrator._handle_tool_call`, and the
  per-turn context management of `process_user_input`.

Strings are modelled as `List Char`.  Python's `json.loads` and the MCP
tool executor are external collaborators and appear as function
parameters (`loads`, `execTool`).  Python run-time values that can flow
through a parsed JSON payload are modelled by the inductive type `PyVal`
below; the numeric payload of floats is dropped because none of the
embedded functions inspect it.
-/

namespace Jiki

/-! ## Generic string machinery (substring search)

`re.Pattern.search` for the patterns used by the engine
(`(<tag>)(.*?)(</tag>)` with `re.DOTALL`, and plain `str.find`) reduces
to "first index at which a literal pattern occurs".  We implement this
search directly on `List Char`.
-/

/-- `listPrefix p s = true` iff `p` is a (literal) prefix of `s`. -/
def listPrefix : List Char → List Char → Bool
  | [], _ => true
  | _ :: _, [] => false
  | a :: as, b :: bs => a = b && listPrefix as bs

/-- First index at which the literal pattern `pat` occurs in `s`
(`none` if it never occurs); the semantics of `str.find` and of the
leftmost regex match of a literal. -/
def findSub (pat : List Char) : List Char → Option Nat
  | [] => if listPrefix pat [] then some 0 else none
  | c :: t =>
    if listPrefix pat (c :: t) then some 0
    else (findSub pat t).map (· + 1)

/-- `occursB pat s` : does `pat` occur anywhere in `s`?  (`pat in s`). -/
def occursB (pat s : List Char) : Bool := (findSub pat s).isSome

theorem listPrefix_iff_isPrefix (p s : List Char) :
    listPrefix p s = true ↔ p <+: s := by
  induction p generalizing s with
  | nil => simp [listPrefix]
  | cons a as ih =>
    cases s with
    | nil => simp [listPrefix]
    | cons b bs =>
      simp only [listPrefix, Bool.and_eq_true, decide_eq_true_eq, ih,
        List.cons_prefix_cons]

theorem listPrefix_length_le {p s : List Char} (h : listPrefix p s = true) :
    p.length ≤ s.length :=
  ((listPrefix_iff_isPrefix p s).mp h).length_le

/-- A prefix of `s` is still a prefix of `s ++ u`. -/
theorem listPrefix_append_right {p s : List Char} (u : List Char)
    (h : listPrefix p s = true) : listPrefix p (s ++ u) = true := by
  rw [listPrefix_iff_isPrefix] at h ⊢
  exact h.trans (s.prefix_append u)

/-- When the pattern fits inside `s`, appending text to `s` does not
change whether it is a prefix. -/
theorem listPrefix_append_of_le {p s : List Char} (u : List Char)
    (hlen : p.length ≤ s.length) :
    listPrefix p (s ++ u) = listPrefix p s := by
  induction p generalizing s with
  | nil => simp [listPrefix]
  | cons a as ih =>
    cases s with
    | nil => simp at hlen
    | cons b bs =>
      simp only [List.cons_append, listPrefix, List.append_eq]
      rw [ih (by simpa using hlen)]

theorem findSub_some_hit {pat s : List Char} {i : Nat}
    (h : findSub pat s = some i) : listPrefix pat (s.drop i) = true := by
  induction s generalizing i with
  | nil =>
    by_cases hp : listPrefix pat [] = true
    · simp only [findSub, if_pos hp] at h
      cases h; simpa using hp
    · simp [findSub, hp] at h
  | cons c t ih =>
    by_cases hp : listPrefix pat (c :: t) = true
    · simp only [findSub, if_pos hp] at h
      cases h; simpa using hp
    · simp only [findSub, if_neg hp, Option.map_eq_some'] at h
      obtain ⟨j, hj, rfl⟩ := h
      simpa using ih hj

theorem findSub_some_min {pat s : List Char} {i : Nat}
    (h : findSub pat s = some i) :
    ∀ j, j < i → listPrefix pat (s.drop j) = false := by
  induction s generalizing i with
  | nil =>
    intro j hj
    by_cases hp : listPrefix pat [] = true
    · simp only [findSub, if_pos hp] at h; cases h; omega
    · simp [findSub, hp] at h
  | cons c t ih =>
    intro j hj
    by_cases hp : listPrefix pat (c :: t) = true
    · simp only [findSub, if_pos hp] at h; cases h; omega
    · simp only [findSub, if_neg hp, Option.map_eq_some'] at h
      obtain ⟨i', hi', rfl⟩ := h
      cases j with
      | zero => simpa using Bool.of_not_eq_true hp
      | succ j' => simpa using ih hi' j' (by omega)

theorem findSub_none {pat s : List Char} (h : findSub pat s = none) :
    ∀ j, listPrefix pat (s.drop j) = false := by
  induction s with
  | nil =>
    intro j
    by_cases hp : listPrefix pat [] = true
    · simp [findSub, hp] at h
    · simpa using Bool.of_not_eq_true hp
  | cons c t ih =>
    intro j
    by_cases hp : listPrefix pat (c :: t) = true
    · simp [findSub, hp] at h
    · simp only [findSub, if_neg hp, Option.map_eq_none'] at h
      cases j with
      | zero => simpa using Bool.of_not_eq_true hp
      | succ j' => simpa using ih h j'

/-- Converse characterization: an occurrence at `i` that is minimal is
what `findSub` returns. -/
theorem findSub_eq_some_of {pat s : List Char} {i : Nat}
    (hocc : listPrefix pat (s.drop i) = true)
    (hmin : ∀ j, j < i → listPrefix pat (s.drop j) = false) :
    findSub pat s = some i := by
  induction s generalizing i with
  | nil =>
    cases i with
    | zero => simpa [findSub] using hocc
    | succ i' =>
      have := hmin 0 (by omega)
      simp only [List.drop_nil] at hocc this
      rw [hocc] at this; cases this
  | cons c t ih =>
    cases i with
    | zero => simpa [findSub] using hocc
    | succ i' =>
      have h0 : listPrefix pat (c :: t) = false := by
        simpa using hmin 0 (by omega)
      simp only [findSub, h0, Bool.false_eq_true, if_false]
      have ht : findSub pat t = some i' := by
        apply ih
        · simpa using hocc
        · intro j hj
          simpa using hmin (j + 1) (by omega)
      rw [ht]; rfl

theorem findSub_some_le_length {pat s : List Char} {i : Nat}
    (h : findSub pat s = some i) : i ≤ s.length := by
  induction s generalizing i with
  | nil =>
    by_cases hp : listPrefix pat [] = true
    · simp only [findSub, if_pos hp] at h; cases h; simp
    · simp [findSub, hp] at h
  | cons c t ih =>
    by_cases hp : listPrefix pat (c :: t) = true
    · simp only [findSub, if_pos hp] at h; cases h; simp
    · simp only [findSub, if_neg hp, Option.map_eq_some'] at h
      obtain ⟨i', hi', rfl⟩ := h
      have := ih hi'
      simp; omega

/-- An occurrence found by `findSub` fits inside the string. -/
theorem findSub_some_le {pat s : List Char} {i : Nat}
    (h : findSub pat s = some i) : i + pat.length ≤ s.length := by
  have h1 := listPrefix_length_le (findSub_some_hit h)
  have h2 := findSub_some_le_length h
  simp only [List.length_drop] at h1
  omega

/-- Appending text to the buffer does not move the first occurrence. -/
theorem findSub_append {pat s : List Char} {i : Nat} (u : List Char)
    (h : findSub pat s = some i) : findSub pat (s ++ u) = some i := by
  apply findSub_eq_some_of
  · have := findSub_some_hit h
    have hle : i ≤ s.length := by
      have := findSub_some_le h; omega
    rw [List.drop_append_of_le_length hle]
    exact listPrefix_append_right u this
  · intro j hj
    have hk : findSub pat s = some i := h
    have hmin := findSub_some_min h j hj
    have hle : i + pat.length ≤ s.length := findSub_some_le h
    have hjle : j ≤ s.length := by omega
    rw [List.drop_append_of_le_length hjle]
    rw [listPrefix_append_of_le u (by simp [List.length_drop]; omega)]
    exact hmin

/-- An occurrence in `s.drop k` is an occurrence in `s`. -/
theorem occursB_of_drop {pat s : List Char} {k : Nat}
    (h : occursB pat (s.drop k) = true) : occursB pat s = true := by
  unfold occursB at h ⊢
  cases hf : findSub pat (s.drop k) with
  | none => rw [hf] at h; simp at h
  | some i =>
    have hp := findSub_some_hit hf
    rw [List.drop_drop] at hp
    cases hg : findSub pat s with
    | some j => simp
    | none =>
      have := findSub_none hg (k + i)
      rw [this] at hp; cases hp

/-- An occurrence in `s.take k` is an occurrence in `s`. -/
theorem occursB_of_take {pat s : List Char} {k : Nat}
    (h : occursB pat (s.take k) = true) : occursB pat s = true := by
  unfold occursB at h ⊢
  cases hf : findSub pat (s.take k) with
  | none => rw [hf] at h; simp at h
  | some i =>
    have hp := findSub_some_hit hf
    rw [listPrefix_iff_isPrefix] at hp
    have htake : (s.take k).drop i <+: s.drop i := by
      rw [List.drop_take]
      exact List.take_prefix _ _
    have hp' : pat <+: s.drop i := hp.trans htake
    cases hg : findSub pat s with
    | some j => simp
    | none =>
      have := findSub_none hg i
      rw [← listPrefix_iff_isPrefix] at hp'
      rw [this] at hp'; cases hp'

/-! ## `trim_context` — src/jiki/utils/context.py

```python
def trim_context(messages, num_tokens, max_tokens) -> None:
    while num_tokens(messages) > max_tokens and len(messages) > 2:
        messages.pop(1)
```

The Python function mutates the list in place; we model it as the
function from the input list to the final list.  It never inspects the
messages themselves (only through `num_tokens`), so the element type is
a parameter.  `pop1` is `list.pop(1)`.
-/

/-- `messages.pop(1)`: drop the element at index 1 (no-op on lists of
length < 2, which matches the guard `len(messages) > 2` under which the
code calls it). -/
def pop1 {α : Type} : List α → List α
  | a :: _ :: t => a :: t
  | l => l

def trim_context {α : Type} (num_tokens : List α → Nat) (max_tokens : Nat)
    (messages : List α) : List α :=
  if _h : num_tokens messages > max_tokens ∧ messages.length > 2 then
    trim_context num_tokens max_tokens (pop1 messages)
  else messages
termination_by messages.length
decreasing_by
  cases messages with
  | nil => simp at _h
  | cons a t =>
    cases t with
    | nil => simp at _h
    | cons b t' => simp [pop1]

/-! ## `extract_tool_call` — src/jiki/utils/parsing.py

```python
PAT_TOOL_CALL = re.compile(r"(<mcp_tool_call>)(.*?)(</mcp_tool_call>)", re.DOTALL)

def extract_tool_call(text):
    match = PAT_TOOL_CALL.search(text)
    if match:
        content = match.group(2)
        closing_tag = match.group(3)
        if closing_tag == f"</{match.group(1)[1:-1]}>":
            return content
    return None
```

The leftmost match of `(open)(.*?)(close)` for the literal delimiters
starts at the first occurrence of `open` that is followed (at or after
the end of `open`) by an occurrence of `close`; the lazy inner group
ends at the first such `close`.  Since any occurrence of `close` after a
later occurrence of `open` is also after the first one, the match starts
at the *first* occurrence of `open` whenever a match exists at all.
The `closing_tag == f"</{...}>"` guard always holds (group 1 is the
literal `<mcp_tool_call>`), so it adds nothing.
`JikiOrchestrator._extract_tool_call_if_present` is the same code on the
same pattern. -/

def toolCallOpen : List Char := "<mcp_tool_call>".data
def toolCallClose : List Char := "</mcp_tool_call>".data

/-- First complete `open...close` block: inner content, or `none`. -/
def extractBlock (op cl : List Char) (s : List Char) : Option (List Char) :=
  match findSub op s with
  | none => none
  | some i =>
    let rest := s.drop (i + op.length)
    match findSub cl rest with
    | none => none
    | some j => some (rest.take j)

def extract_tool_call (text : List Char) : Option (List Char) :=
  extractBlock toolCallOpen toolCallClose text

theorem extractBlock_none_of_no_close {op cl s : List Char}
    (hcl : occursB cl s = false) : extractBlock op cl s = none := by
  unfold extractBlock
  cases hop : findSub op s with
  | none => rfl
  | some i =>
    have hc : findSub cl (s.drop (i + op.length)) = none := by
      cases hc2 : findSub cl (s.drop (i + op.length)) with
      | none => rfl
      | some j =>
        exfalso
        have : occursB cl s = true :=
          occursB_of_drop (k := i + op.length) (by simp [occursB, hc2])
        rw [hcl] at this; cases this
    simp only [hc]

/-- Appending more streamed tokens never changes the inner text already
returned for the first complete block. -/
theorem extractBlock_append {op cl s t : List Char} (u : List Char)
    (h : extractBlock op cl s = some t) :
    extractBlock op cl (s ++ u) = some t := by
  unfold extractBlock at h ⊢
  cases hop : findSub op s with
  | none => rw [hop] at h; cases h
  | some i =>
    rw [hop] at h
    rw [findSub_append u hop]
    simp only at h ⊢
    cases hc : findSub cl (s.drop (i + op.length)) with
    | none => rw [hc] at h; cases h
    | some j =>
      rw [hc] at h
      have hdrop : (s ++ u).drop (i + op.length) = s.drop (i + op.length) ++ u := by
        rw [List.drop_append_of_le_length (findSub_some_le hop)]
      rw [hdrop, findSub_append u hc]
      simp only [Option.some.injEq] at h ⊢
      rw [← h]
      have hle := findSub_some_le hc
      rw [List.take_append_of_le_length (by omega)]

/-- Exactness: if the buffer decomposes as
`pre ++ op ++ inner ++ cl ++ post`, the opening delimiter first occurs
where the decomposition says, and the closing delimiter first occurs
right after `inner`, then the extracted content is exactly `inner`. -/
theorem extractBlock_exact {op cl : List Char} (pre inner post : List Char)
    (hfirstOp : ∀ p, p < pre.length →
      listPrefix op ((pre ++ op ++ inner ++ cl ++ post).drop p) = false)
    (hfirstCl : ∀ q, q < inner.length →
      listPrefix cl ((inner ++ cl ++ post).drop q) = false) :
    extractBlock op cl (pre ++ op ++ inner ++ cl ++ post) = some inner := by
  have hop : findSub op (pre ++ op ++ inner ++ cl ++ post) = some pre.length := by
    apply findSub_eq_some_of
    · have hd : (pre ++ op ++ inner ++ cl ++ post).drop pre.length
          = op ++ (inner ++ cl ++ post) := by
        have : pre ++ op ++ inner ++ cl ++ post
            = pre ++ (op ++ (inner ++ cl ++ post)) := by
          simp [List.append_assoc]
        rw [this, List.drop_left]
      rw [hd, listPrefix_iff_isPrefix]
      exact List.prefix_append ..
    · exact hfirstOp
  have hrest : (pre ++ op ++ inner ++ cl ++ post).drop (pre.length + op.length)
      = inner ++ cl ++ post := by
    have h1 : pre ++ op ++ inner ++ cl ++ post
        = (pre ++ op) ++ (inner ++ cl ++ post) := by
      simp [List.append_assoc]
    have h2 : pre.length + op.length = (pre ++ op).length := by simp
    rw [h1, h2, List.drop_left]
  have hcl : findSub cl (inner ++ cl ++ post) = some inner.length := by
    apply findSub_eq_some_of
    · have hd : (inner ++ cl ++ post).drop inner.length = cl ++ post := by
        have : inner ++ cl ++ post = inner ++ (cl ++ post) := by
          simp [List.append_assoc]
        rw [this, List.drop_left]
      rw [hd, listPrefix_iff_isPrefix]
      exact List.prefix_append ..
    · exact hfirstCl
  unfold extractBlock
  rw [hop]
  simp only [hrest, hcl]
  have ht : (inner ++ cl ++ post).take inner.length = inner := by
    have : inner ++ cl ++ post = inner ++ (cl ++ post) := by
      simp [List.append_assoc]
    rw [this, List.take_left]
  rw [ht]

/-! ## Claim C5 — trimming invariants -/

theorem take_one_append_drop_one {α : Type} (l : List α) :
    l.take 1 ++ l.drop 1 = l := List.take_append_drop 1 l

theorem evict_cons_cons {α : Type} (j : Nat) (a b : α) (t : List α) :
    (a :: b :: t).take 1 ++ (a :: b :: t).drop (1 + (j + 1))
      = (a :: t).take 1 ++ (a :: t).drop (1 + j) := by
  have h1 : 1 + (j + 1) = j + 1 + 1 := by omega
  have h2 : 1 + j = j + 1 := by omega
  rw [h1, h2]
  simp

/-- C5: for every message list, token-counting function and budget,
`trim_context` keeps the message at position 0 unchanged, returns
message 0 followed by a contiguous suffix of the original messages from
position 1 onward (eviction only at position 1, FIFO), evicts only
while the count exceeded the budget with more than 2 messages present,
and stops exactly when the count no longer exceeds the budget or at
most 2 messages remain. -/
theorem trim_context_spec (α : Type) (num_tokens : List α → Nat)
    (max_tokens : Nat) (messages : List α) :
    ∃ k,
      trim_context num_tokens max_tokens messages
        = messages.take 1 ++ messages.drop (1 + k)
      ∧ (trim_context num_tokens max_tokens messages).head? = messages.head?
      ∧ (∀ j, j < k →
          num_tokens (messages.take 1 ++ messages.drop (1 + j)) > max_tokens
          ∧ (messages.take 1 ++ messages.drop (1 + j)).length > 2)
      ∧ (num_tokens (trim_context num_tokens max_tokens messages) ≤ max_tokens
         ∨ (trim_context num_tokens max_tokens messages).length ≤ 2) := by
  induction messages using trim_context.induct num_tokens max_tokens with
  | case1 messages h ih =>
    have heq : trim_context num_tokens max_tokens messages
        = trim_context num_tokens max_tokens (pop1 messages) := by
      rw [trim_context, dif_pos h]
    obtain ⟨a, b, t, rfl⟩ : ∃ a b t, messages = a :: b :: t := by
      match messages, h with
      | a :: b :: t, _ => exact ⟨a, b, t, rfl⟩
    obtain ⟨k, hk1, _hk2, hk3, hk4⟩ := ih
    have hpop : pop1 (a :: b :: t) = a :: t := rfl
    rw [hpop] at hk1 hk3 hk4
    refine ⟨k + 1, ?_, ?_, ?_, ?_⟩
    · rw [heq, hpop, evict_cons_cons]
      exact hk1
    · rw [heq, hpop, hk1]
      simp
    · intro j hj
      cases j with
      | zero =>
        simpa [take_one_append_drop_one] using h
      | succ j' =>
        rw [evict_cons_cons]
        exact hk3 j' (by omega)
    · rw [heq, hpop]
      exact hk4
  | case2 messages h =>
    have heq : trim_context num_tokens max_tokens messages = messages := by
      rw [trim_context, dif_neg h]
    push_neg at h
    refine ⟨0, ?_, ?_, ?_, ?_⟩
    · rw [heq, Nat.add_zero, take_one_append_drop_one]
    · rw [heq]
    · intro j hj; omega
    · rw [heq]
      by_cases hgt : num_tokens messages > max_tokens
      · exact Or.inr (h hgt)
      · exact Or.inl (by omega)

theorem trim_context_spec_witness :
    ∃ k,
      trim_context (fun l => l.length) 3 [10, 20, 30, 40, 50]
        = [10, 20, 30, 40, 50].take 1 ++ [10, 20, 30, 40, 50].drop (1 + k)
      ∧ (trim_context (fun l => l.length) 3 [10, 20, 30, 40, 50]).head?
          = [10, 20, 30, 40, 50].head?
      ∧ (∀ j, j < k →
          ([10, 20, 30, 40, 50].take 1 ++ [10, 20, 30, 40, 50].drop (1 + j)).length > 3
          ∧ ([10, 20, 30, 40, 50].take 1 ++ [10, 20, 30, 40, 50].drop (1 + j)).length > 2)
      ∧ ((trim_context (fun l => l.length) 3 [10, 20, 30, 40, 50]).length ≤ 3
         ∨ (trim_context (fun l => l.length) 3 [10, 20, 30, 40, 50]).length ≤ 2) :=
  trim_context_spec Nat (fun l => l.length) 3 [10, 20, 30, 40, 50]

/-! ## Claim C6 — tag-scanner completeness -/

/-- C6: the tag scanner returns `none` for a buffer holding an opening
`<mcp_tool_call>` delimiter with no closing delimiter; for a buffer
holding a complete block it returns exactly the inner text between the
delimiters; and appending further streamed text never changes the inner
text returned for the first complete block. -/
theorem extract_tool_call_spec :
    (∀ s, occursB toolCallOpen s = true → occursB toolCallClose s = false →
      extract_tool_call s = none)
    ∧ (∀ s t u, extract_tool_call s = some t →
        extract_tool_call (s ++ u) = some t)
    ∧ (∀ pre inner post,
        (∀ p, p < pre.length →
          listPrefix toolCallOpen
            ((pre ++ toolCallOpen ++ inner ++ toolCallClose ++ post).drop p) = false) →
        (∀ q, q < inner.length →
          listPrefix toolCallClose ((inner ++ toolCallClose ++ post).drop q) = false) →
        extract_tool_call (pre ++ toolCallOpen ++ inner ++ toolCallClose ++ post)
          = some inner) := by
  refine ⟨?_, ?_, ?_⟩
  · intro s _hop hcl
    exact extractBlock_none_of_no_close hcl
  · intro s t u h
    exact extractBlock_append u h
  · intro pre inner post h1 h2
    exact extractBlock_exact pre inner post h1 h2

theorem extract_tool_call_spec_witness :
    extract_tool_call "Hi <mcp_tool_call>{a: 1}".data = none
    ∧ extract_tool_call
        ("x<mcp_tool_call>{a: 1}</mcp_tool_call>".data ++ " tail".data)
        = some "{a: 1}".data
    ∧ extract_tool_call
        ("x".data ++ toolCallOpen ++ "{a: 1}".data ++ toolCallClose ++ "y".data)
        = some "{a: 1}".data := by
  refine ⟨?_, ?_, ?_⟩
  · exact extract_tool_call_spec.1 _ (by decide) (by decide)
  · exact extract_tool_call_spec.2.1 _ _ _ (by decide)
  · exact extract_tool_call_spec.2.2 "x".data "{a: 1}".data "y".data
      (by decide) (by decide)

/-! ## `repair_json` — src/jiki/utils.py lines 13–55

```python
def repair_json(json_str):
    try:
        result = json.loads(json_str)
        return result, "direct", None
    except json.JSONDecodeError as e:
        parsing_error = str(e)
        json_start = json_str.find('{')
        json_end = json_str.rfind('}')
        if json_start != -1 and json_end != -1 and json_end > json_start:
            json_content = json_str[json_start:json_end + 1]
            try:
                result = json.loads(json_content)
                return result, "extracted", None
            except json.JSONDecodeError:
                try:
                    fixed_content = json_content.replace("'", '"')
                    fixed_content = re.sub(r',\s*}', '}', fixed_content)
                    fixed_content = re.sub(r'(\{|\,)\s*([a-zA-Z0-9_]+)\s*:', r'\1"\2":', fixed_content)
                    result = json.loads(fixed_content)
                    return result, "repaired", parsing_error
                except json.JSONDecodeError as e3:
                    return {}, "failed", str(e3)
        else:
            return {}, "no_json_found", parsing_error
```

`json.loads` belongs to the Python standard library (an external
collaborator of this repository), so it appears as a parameter
`loads : List Char → Except (List Char) J`, returning the parsed value
or the decode-error text; the parsed-JSON type `J` and the empty dict
`{}` returned on failure are likewise parameters.  The two `re.sub`
repairs never raise, so folding them into the inner `try` is faithful.
-/

/-- Python's `\s` class (ASCII range): space, tab, newline, carriage
return, vertical tab, form feed. -/
def pyIsSpace (c : Char) : Bool :=
  c = ' ' || c = '\t' || c = '\n' || c = '\r' || c.toNat = 11 || c.toNat = 12

def singleQuoteChar : Char := Char.ofNat 39
def doubleQuoteChar : Char := Char.ofNat 34

/-- `json_content.replace("'", '"')`. -/
def replaceQuotes (s : List Char) : List Char :=
  s.map (fun c => if c = singleQuoteChar then doubleQuoteChar else c)

/-- `re.sub(r',\s*}', '}', s)`: every comma followed by optional
whitespace and a closing brace collapses to the closing brace; scanning
resumes after the match.  Structural recursion on a fuel counter (each
step consumes at least one character, so `l.length` fuel is enough;
when the fuel and the characters run out together the `0, l` base case
returns the empty remainder, which coincides with the scan's answer). -/
def fixTrailingFuel : Nat → List Char → List Char
  | 0, l => l
  | _ + 1, [] => []
  | fuel + 1, c :: t =>
    if c = ',' ∧ (t.dropWhile pyIsSpace).head? = some '}' then
      '}' :: fixTrailingFuel fuel (t.dropWhile pyIsSpace).tail
    else
      c :: fixTrailingFuel fuel t

def fixTrailing (l : List Char) : List Char := fixTrailingFuel l.length l

/-- `[a-zA-Z0-9_]` (`Char.isAlphanum` is exactly ASCII `[a-zA-Z0-9]`). -/
def isWordChar (c : Char) : Bool := c.isAlphanum || c = '_'

/-- `re.sub(r'(\{|\,)\s*([a-zA-Z0-9_]+)\s*:', r'\1"\2":', s)`: after a
`{` or `,`, a bare key followed by `:` gains double quotes (surrounding
whitespace inside the match is dropped by the replacement); scanning
resumes after the matched `:`. -/
def fixBareKeysFuel : Nat → List Char → List Char
  | 0, l => l
  | _ + 1, [] => []
  | fuel + 1, c :: t =>
    if (c = '{' ∨ c = ',')
        ∧ (t.dropWhile pyIsSpace).takeWhile isWordChar ≠ []
        ∧ (((t.dropWhile pyIsSpace).dropWhile isWordChar).dropWhile
            pyIsSpace).head? = some ':' then
      c :: doubleQuoteChar ::
        ((t.dropWhile pyIsSpace).takeWhile isWordChar ++
          doubleQuoteChar :: ':' ::
            fixBareKeysFuel fuel (((t.dropWhile pyIsSpace).dropWhile
              isWordChar).dropWhile pyIsSpace).tail)
    else
      c :: fixBareKeysFuel fuel t

def fixBareKeys (l : List Char) : List Char := fixBareKeysFuel l.length l

/-- Index of the last occurrence of `c` in `s` (`str.rfind`). -/
def rfindChar (c : Char) (s : List Char) : Option Nat :=
  match findSub [c] s.reverse with
  | none => none
  | some i => some (s.length - 1 - i)

def repair_json {J : Type} (loads : List Char → Except (List Char) J)
    (emptyObj : J) (json_str : List Char) :
    J × List Char × Option (List Char) :=
  match loads json_str with
  | .ok result => (result, "direct".data, none)
  | .error parsing_error =>
    match findSub ['{'] json_str, rfindChar '}' json_str with
    | some json_start, some json_end =>
      if json_end > json_start then
        let json_content := (json_str.drop json_start).take
          (json_end + 1 - json_start)
        match loads json_content with
        | .ok result => (result, "extracted".data, none)
        | .error _ =>
          let fixed_content :=
            fixBareKeys (fixTrailing (replaceQuotes json_content))
          match loads fixed_content with
          | .ok result => (result, "repaired".data, some parsing_error)
          | .error e3 => (emptyObj, "failed".data, some e3)
      else (emptyObj, "no_json_found".data, some parsing_error)
    | _, _ => (emptyObj, "no_json_found".data, some parsing_error)

/-! ## Claim C7 — repair-chain ordering -/

/-- C7: if the whole input parses directly, `repair_json` reports method
`"direct"` with no error and that parse as the result (so the
extraction and repair steps are never taken for it); method
`"extracted"` can only be reported when direct parsing failed; method
`"repaired"` only when direct parsing failed *and* parsing the
substring from the first `{` to the last `}` also failed. -/
theorem repair_json_spec (J : Type)
    (loads : List Char → Except (List Char) J) (emptyObj : J)
    (s : List Char) :
    (∀ r, loads s = .ok r →
      repair_json loads emptyObj s = (r, "direct".data, none))
    ∧ ((repair_json loads emptyObj s).2.1 = "extracted".data →
        ∃ e, loads s = .error e)
    ∧ ((repair_json loads emptyObj s).2.1 = "repaired".data →
        (∃ e, loads s = .error e)
        ∧ ∃ a b, findSub ['{'] s = some a ∧ rfindChar '}' s = some b
            ∧ b > a
            ∧ ∃ e2, loads ((s.drop a).take (b + 1 - a)) = .error e2) := by
  refine ⟨?_, ?_, ?_⟩
  · intro r hr
    unfold repair_json
    rw [hr]
  · intro hm
    cases hok : loads s with
    | ok r =>
      unfold repair_json at hm
      rw [hok] at hm
      simp only at hm
      have : ("direct".data : List Char) ≠ "extracted".data := by decide
      exact absurd hm this
    | error e => exact ⟨e, rfl⟩
  · intro hm
    cases hok : loads s with
    | ok r =>
      unfold repair_json at hm
      rw [hok] at hm
      simp only at hm
      have : ("direct".data : List Char) ≠ "repaired".data := by decide
      exact absurd hm this
    | error e =>
      refine ⟨⟨e, rfl⟩, ?_⟩
      unfold repair_json at hm
      rw [hok] at hm
      cases hstart : findSub ['{'] s with
      | none =>
        rw [hstart] at hm
        simp only at hm
        have : ("no_json_found".data : List Char) ≠ "repaired".data := by
          decide
        exact absurd hm this
      | some a =>
        cases hend : rfindChar '}' s with
        | none =>
          rw [hstart, hend] at hm
          simp only at hm
          have : ("no_json_found".data : List Char) ≠ "repaired".data := by
            decide
          exact absurd hm this
        | some b =>
          rw [hstart, hend] at hm
          simp only at hm
          by_cases hgt : b > a
          · rw [if_pos hgt] at hm
            refine ⟨a, b, rfl, rfl, hgt, ?_⟩
            cases hx : loads ((s.drop a).take (b + 1 - a)) with
            | ok r =>
              rw [hx] at hm
              simp only at hm
              have : ("extracted".data : List Char) ≠ "repaired".data := by
                decide
              exact absurd hm this
            | error e2 => exact ⟨e2, rfl⟩
          · rw [if_neg hgt] at hm
            simp only at hm
            have : ("no_json_found".data : List Char) ≠ "repaired".data := by
              decide
            exact absurd hm this

theorem repair_json_spec_witness :
    repair_json (fun _ => Except.ok 1) 0 "{}".data = (1, "direct".data, none)
    ∧ (∃ e, (fun (t : List Char) => if t = "{}".data
        then Except.ok 1 else Except.error "bad".data) "x{}".data
          = Except.error e)
    ∧ ((∃ e, (fun (t : List Char) => if t = "{1}".data
          then Except.ok 2 else Except.error "e".data) "x{1,}".data
            = Except.error e)
        ∧ ∃ a b, findSub ['{'] "x{1,}".data = some a
            ∧ rfindChar '}' "x{1,}".data = some b
            ∧ b > a
            ∧ ∃ e2, (fun (t : List Char) => if t = "{1}".data
                then Except.ok 2 else Except.error "e".data)
                  (("x{1,}".data.drop a).take (b + 1 - a))
                = Except.error e2) := by
  refine ⟨?_, ?_, ?_⟩
  · exact (repair_json_spec Nat (fun _ => Except.ok 1) 0 "{}".data).1 1 rfl
  · exact (repair_json_spec Nat
      (fun t => if t = "{}".data then Except.ok 1
        else Except.error "bad".data) 0 "x{}".data).2.1 (by decide)
  · exact (repair_json_spec Nat
      (fun t => if t = "{1}".data then Except.ok 2
        else Except.error "e".data) 0 "x{1,}".data).2.2 (by decide)

/-! ## `clean_output` — src/jiki/utils/cleaning.py

```python
CLEAN_PATTERNS = [
    re.compile(r"<mcp_tool_call>.*?</mcp_tool_call>", re.DOTALL),
    re.compile(r"<mcp_tool_result>.*?</mcp_tool_result>", re.DOTALL),
    re.compile(r"<mcp_available_tools>.*?</mcp_available_tools>", re.DOTALL),
    re.compile(r"<Assistant_Thought>.*?</Assistant_Thought>", re.DOTALL),
]
NEWLINE_COLLAPSE = re.compile(r"\n{3,}")

def clean_output(text):
    result = text
    for pat in CLEAN_PATTERNS:
        result = pat.sub("", result)
    return NEWLINE_COLLAPSE.sub("\n\n", result.strip())
```

(`clean_output` in src/jiki/utils.py lines 158–177 is the same
algorithm with the pattern list passed as an argument; the orchestrator
calls it with exactly these four patterns, compiled in
`JikiOrchestrator.__init__`.)

`pat.sub("", result)` for `open.*?close` (DOTALL, lazy): repeatedly
delete the span from the leftmost occurrence of `open` through the
first following occurrence of `close`, resuming the scan right after
the deleted span.  Fuel-based structural recursion (every deletion
consumes at least the nonempty closing delimiter, so `s.length` fuel is
enough; with no fuel left the remainder is returned unchanged, which
coincides with the scan's answer because the scan is also done then). -/

def removeBlocksFuel (op cl : List Char) : Nat → List Char → List Char
  | 0, s => s
  | fuel + 1, s =>
    match findSub op s with
    | none => s
    | some i =>
      match findSub cl (s.drop (i + op.length)) with
      | none => s
      | some j =>
        s.take i ++ removeBlocksFuel op cl fuel
          ((s.drop (i + op.length)).drop (j + cl.length))

def removeBlocks (op cl : List Char) (s : List Char) : List Char :=
  removeBlocksFuel op cl s.length s

def toolResultOpen : List Char := "<mcp_tool_result>".data
def toolResultClose : List Char := "</mcp_tool_result>".data
def availableToolsOpen : List Char := "<mcp_available_tools>".data
def availableToolsClose : List Char := "</mcp_available_tools>".data
def thoughtOpen : List Char := "<Assistant_Thought>".data
def thoughtClose : List Char := "</Assistant_Thought>".data

/-- The four `CLEAN_PATTERNS`, in source order. -/
def cleanPatterns : List (List Char × List Char) :=
  [(toolCallOpen, toolCallClose),
   (toolResultOpen, toolResultClose),
   (availableToolsOpen, availableToolsClose),
   (thoughtOpen, thoughtClose)]

/-- `for pat in CLEAN_PATTERNS: result = pat.sub("", result)`. -/
def removeAllBlocks (text : List Char) : List Char :=
  cleanPatterns.foldl (fun acc p => removeBlocks p.1 p.2 acc) text

/-- `str.rstrip()` for the ASCII whitespace class. -/
def rstripList : List Char → List Char
  | [] => []
  | c :: t =>
    if rstripList t = [] ∧ pyIsSpace c then [] else c :: rstripList t

/-- `str.strip()` (restricted to the ASCII whitespace characters, which
are the only whitespace appearing in this development). -/
def pyStrip (s : List Char) : List Char :=
  rstripList (s.dropWhile pyIsSpace)

def isNl (c : Char) : Bool := c = '\n'

/-- `re.sub(r"\n{3,}", "\n\n", s)`: each maximal run of at least three
newlines becomes exactly two. -/
def collapseNl : List Char → List Char
  | [] => []
  | c :: t =>
    if isNl c = true then
      (if 3 ≤ ((c :: t).takeWhile isNl).length then ['\n', '\n']
       else (c :: t).takeWhile isNl) ++ collapseNl ((c :: t).dropWhile isNl)
    else
      c :: collapseNl t
termination_by l => l.length
decreasing_by
  · have h1 : (c :: t).dropWhile isNl = t.dropWhile isNl := by
      rw [List.dropWhile_cons]
      simp [*]
    rw [h1]
    have : (t.dropWhile isNl).length ≤ t.length :=
      (List.dropWhile_sublist _).length_le
    simp only [List.length_cons]
    omega
  · simp only [List.length_cons]
    omega

def clean_output (text : List Char) : List Char :=
  collapseNl (pyStrip (removeAllBlocks text))

/-- No opening directive delimiter occurs in the string (then none of
the four block patterns can match). -/
def noDirectiveTags (s : List Char) : Bool :=
  !occursB toolCallOpen s && !occursB toolResultOpen s
    && !occursB availableToolsOpen s && !occursB thoughtOpen s

theorem occursB_cons (pat : List Char) (c : Char) (X : List Char) :
    occursB pat (c :: X) = (listPrefix pat (c :: X) || occursB pat X) := by
  unfold occursB
  simp only [findSub]
  by_cases hp : listPrefix pat (c :: X) = true
  · simp [hp]
  · simp [Bool.of_not_eq_true hp]

theorem removeBlocksFuel_id {op : List Char} (cl : List Char) (fuel : Nat)
    {s : List Char} (h : occursB op s = false) :
    removeBlocksFuel op cl fuel s = s := by
  cases fuel with
  | zero => rfl
  | succ f =>
    unfold occursB at h
    cases hf : findSub op s with
    | none => unfold removeBlocksFuel; rw [hf]
    | some i => rw [hf] at h; simp at h

theorem removeBlocks_id {op : List Char} (cl : List Char) {s : List Char}
    (h : occursB op s = false) : removeBlocks op cl s = s :=
  removeBlocksFuel_id cl s.length h

theorem removeAllBlocks_id {s : List Char} (h : noDirectiveTags s = true) :
    removeAllBlocks s = s := by
  unfold noDirectiveTags at h
  simp only [Bool.and_eq_true, Bool.not_eq_true'] at h
  obtain ⟨⟨⟨h1, h2⟩, h3⟩, h4⟩ := h
  unfold removeAllBlocks cleanPatterns
  simp only [List.foldl_cons, List.foldl_nil]
  rw [removeBlocks_id _ h1, removeBlocks_id _ h2, removeBlocks_id _ h3,
    removeBlocks_id _ h4]

theorem dropWhile_eq_drop (p : Char → Bool) (s : List Char) :
    ∃ n, s.dropWhile p = s.drop n := by
  induction s with
  | nil => exact ⟨0, rfl⟩
  | cons c t ih =>
    by_cases hc : p c = true
    · obtain ⟨n, hn⟩ := ih
      refine ⟨n + 1, ?_⟩
      rw [List.dropWhile_cons, if_pos hc, hn, List.drop_succ_cons]
    · refine ⟨0, ?_⟩
      rw [List.dropWhile_cons, if_neg hc, List.drop_zero]

theorem rstripList_eq_take (s : List Char) :
    ∃ k, rstripList s = s.take k := by
  induction s with
  | nil => exact ⟨0, rfl⟩
  | cons c t ih =>
    obtain ⟨k, hk⟩ := ih
    by_cases hc : rstripList t = [] ∧ pyIsSpace c = true
    · refine ⟨0, ?_⟩
      rw [rstripList, if_pos hc, List.take_zero]
    · refine ⟨k + 1, ?_⟩
      rw [rstripList, if_neg hc, hk, List.take_succ_cons]

theorem occursB_pyStrip {pat s : List Char}
    (h : occursB pat (pyStrip s) = true) : occursB pat s = true := by
  unfold pyStrip at h
  obtain ⟨k, hk⟩ := rstripList_eq_take (s.dropWhile pyIsSpace)
  rw [hk] at h
  have h2 := occursB_of_take h
  obtain ⟨n, hn⟩ := dropWhile_eq_drop pyIsSpace s
  rw [hn] at h2
  exact occursB_of_drop h2

theorem occursB_nil_pat (s : List Char) : occursB [] s = true := by
  cases s <;> simp [occursB, findSub, listPrefix]

theorem occursB_of_listPrefix {pat s : List Char}
    (h : listPrefix pat s = true) : occursB pat s = true := by
  cases s with
  | nil => simp [occursB, findSub, h]
  | cons c t => simp [occursB, findSub, h]

theorem collapseNl_nil : collapseNl [] = [] := by
  rw [collapseNl.eq_def]

theorem collapseNl_cons_not_nl {c : Char} (t : List Char)
    (hc : ¬isNl c = true) : collapseNl (c :: t) = c :: collapseNl t := by
  rw [collapseNl, if_neg hc]

theorem collapseNl_cons_nl {c : Char} (t : List Char) (hc : isNl c = true) :
    collapseNl (c :: t) =
      (if 3 ≤ ((c :: t).takeWhile isNl).length then ['\n', '\n']
       else (c :: t).takeWhile isNl) ++ collapseNl ((c :: t).dropWhile isNl) := by
  rw [collapseNl, if_pos hc]

/-- A newline-free prefix of the collapsed string is a prefix of the
original string. -/
theorem collapseNl_listPrefix_pres (l : List Char) :
    ∀ pat : List Char, pat.all (fun c => !isNl c) = true →
      listPrefix pat (collapseNl l) = true → listPrefix pat l = true := by
  induction l using collapseNl.induct with
  | case1 =>
    intro pat _ h
    rwa [collapseNl_nil] at h
  | case2 c t hc ih =>
    intro pat hfree h
    rw [collapseNl_cons_nl t hc] at h
    cases pat with
    | nil => simp [listPrefix]
    | cons p pat' =>
      exfalso
      have hcn : c = '\n' := by simpa [isNl] using hc
      have hchunkhead :
          ∃ rest, (if 3 ≤ ((c :: t).takeWhile isNl).length then ['\n', '\n']
            else (c :: t).takeWhile isNl) ++ collapseNl ((c :: t).dropWhile isNl)
            = '\n' :: rest := by
        by_cases h3 : 3 ≤ ((c :: t).takeWhile isNl).length
        · exact ⟨'\n' :: collapseNl ((c :: t).dropWhile isNl),
            by rw [if_pos h3]; rfl⟩
        · refine ⟨t.takeWhile isNl ++ collapseNl ((c :: t).dropWhile isNl), ?_⟩
          rw [if_neg h3, List.takeWhile_cons, if_pos hc, hcn]
          rfl
      obtain ⟨rest, hrest⟩ := hchunkhead
      rw [hrest] at h
      have hp : p = '\n' := by
        simp only [listPrefix, Bool.and_eq_true, decide_eq_true_eq] at h
        exact h.1
      simp only [List.all_cons, Bool.and_eq_true, Bool.not_eq_true'] at hfree
      rw [hp] at hfree
      simp [isNl] at hfree
  | case3 c t hc ih =>
    intro pat hfree h
    rw [collapseNl_cons_not_nl t hc] at h
    cases pat with
    | nil => simp [listPrefix]
    | cons p pat' =>
      simp only [listPrefix, Bool.and_eq_true, decide_eq_true_eq] at h ⊢
      refine ⟨h.1, ?_⟩
      simp only [List.all_cons, Bool.and_eq_true] at hfree
      exact ih pat' hfree.2 h.2

theorem occursB_append_allNl {X pat : List Char} {p : Char} {pat' : List Char}
    (hpat : pat = p :: pat') (hfree : pat.all (fun c => !isNl c) = true) :
    ∀ chunk : List Char, (∀ d ∈ chunk, d = '\n') →
      occursB pat (chunk ++ X) = true → occursB pat X = true := by
  intro chunk
  induction chunk with
  | nil => intro _ h; simpa using h
  | cons d chunk' ih =>
    intro hmem h
    rw [List.cons_append, occursB_cons] at h
    rcases Bool.or_eq_true_iff.mp h with hpre | hocc
    · exfalso
      subst hpat
      have hdp : p = d := by
        simp only [listPrefix, Bool.and_eq_true, decide_eq_true_eq] at hpre
        exact hpre.1
      have : d = '\n' := hmem d (by simp)
      simp only [List.all_cons, Bool.and_eq_true, Bool.not_eq_true'] at hfree
      rw [hdp, this] at hfree
      simp [isNl] at hfree
    · exact ih (fun x hx => hmem x (by simp [hx])) hocc

/-- A newline-free pattern occurring in the collapsed string occurs in
the original string. -/
theorem collapseNl_occursB_pres (l : List Char) :
    ∀ pat : List Char, pat.all (fun c => !isNl c) = true →
      occursB pat (collapseNl l) = true → occursB pat l = true := by
  induction l using collapseNl.induct with
  | case1 =>
    intro pat _ h
    rwa [collapseNl_nil] at h
  | case2 c t hc ih =>
    intro pat hfree h
    cases hpat : pat with
    | nil => exact occursB_nil_pat _
    | cons p pat' =>
      subst hpat
      rw [collapseNl_cons_nl t hc] at h
      have hchunk : ∀ d ∈ (if 3 ≤ ((c :: t).takeWhile isNl).length
          then ['\n', '\n'] else (c :: t).takeWhile isNl), d = '\n' := by
        intro d hd
        by_cases h3 : 3 ≤ ((c :: t).takeWhile isNl).length
        · rw [if_pos h3] at hd
          simp only [List.mem_cons, List.not_mem_nil, or_false] at hd
          rcases hd with hd | hd <;> exact hd
        · rw [if_neg h3] at hd
          have := List.mem_takeWhile_imp hd
          simpa [isNl] using this
      have h2 := occursB_append_allNl rfl hfree _ hchunk h
      have h3 := ih _ hfree h2
      obtain ⟨n, hn⟩ := dropWhile_eq_drop isNl (c :: t)
      rw [hn] at h3
      exact occursB_of_drop h3
  | case3 c t hc ih =>
    intro pat hfree h
    rw [collapseNl_cons_not_nl t hc, occursB_cons] at h
    rcases Bool.or_eq_true_iff.mp h with hpre | hocc
    · have : listPrefix pat (c :: t) = true := by
        have := collapseNl_listPrefix_pres (c :: t) pat hfree
        rw [collapseNl_cons_not_nl t hc] at this
        exact this hpre
      exact occursB_of_listPrefix this
    · rw [occursB_cons]
      exact Bool.or_eq_true_iff.mpr (Or.inr (ih pat hfree hocc))

/-- Does the string contain three consecutive newlines (i.e. can
`NEWLINE_COLLAPSE` still match)? -/
def hasTripleNL : List Char → Bool
  | [] => false
  | c :: t => (isNl c && listPrefix ['\n', '\n'] t) || hasTripleNL t

theorem hasTripleNL_tail {c : Char} {t : List Char}
    (h : hasTripleNL (c :: t) = false) : hasTripleNL t = false := by
  unfold hasTripleNL at h
  simp only [Bool.or_eq_false_iff] at h
  exact h.2

theorem hasTripleNL_drop (n : Nat) {s : List Char}
    (h : hasTripleNL s = false) : hasTripleNL (s.drop n) = false := by
  induction n generalizing s with
  | zero => simpa using h
  | succ n' ih =>
    cases s with
    | nil => simpa using h
    | cons c t =>
      rw [List.drop_succ_cons]
      exact ih (hasTripleNL_tail h)

theorem takeWhile_isNl_eq_replicate (l : List Char) :
    l.takeWhile isNl = List.replicate (l.takeWhile isNl).length '\n' := by
  apply List.eq_replicate_iff.2
  refine ⟨rfl, ?_⟩
  intro b hb
  have := List.mem_takeWhile_imp hb
  simpa [isNl] using this

theorem collapseNl_ne_nil {l : List Char} (h : l ≠ []) :
    collapseNl l ≠ [] := by
  cases l with
  | nil => exact absurd rfl h
  | cons c t =>
    by_cases hc : isNl c = true
    · rw [collapseNl_cons_nl t hc]
      by_cases h3 : 3 ≤ ((c :: t).takeWhile isNl).length
      · rw [if_pos h3]; simp
      · rw [if_neg h3]
        have : (c :: t).takeWhile isNl = c :: t.takeWhile isNl := by
          rw [List.takeWhile_cons, if_pos hc]
        rw [this]; simp
    · rw [collapseNl_cons_not_nl t hc]; simp

/-- The head of `dropWhile p l` does not satisfy `p`. -/
theorem dropWhile_head_shape (p : Char → Bool) (l : List Char) :
    l.dropWhile p = [] ∨
      ∃ d t', l.dropWhile p = d :: t' ∧ p d = false := by
  induction l with
  | nil => exact Or.inl rfl
  | cons c t ih =>
    by_cases hc : p c = true
    · rw [List.dropWhile_cons, if_pos hc]; exact ih
    · rw [List.dropWhile_cons, if_neg hc]
      exact Or.inr ⟨c, t, rfl, Bool.of_not_eq_true hc⟩

theorem hasTripleNL_replicate_append {m : Nat} (hm : m ≤ 2) (X : List Char)
    (hX : X = [] ∨ ∃ d t', X = d :: t' ∧ isNl d = false)
    (h : hasTripleNL X = false) :
    hasTripleNL (List.replicate m '\n' ++ X) = false := by
  have hpre1 : listPrefix ['\n', '\n'] X = false := by
    rcases hX with rfl | ⟨d, t', rfl, hd⟩
    · rfl
    · simp only [listPrefix, Bool.and_eq_true, Bool.and_eq_false_iff]
      left
      simp only [decide_eq_false_iff_not]
      intro he; rw [← he] at hd; simp [isNl] at hd
  have hpre2 : ∀ Y, listPrefix ['\n'] Y = false →
      listPrefix ['\n', '\n'] ('\n' :: Y) = false := by
    intro Y hY
    simp only [listPrefix] at hY ⊢
    simpa using hY
  interval_cases m
  · simpa using h
  · simp only [List.replicate, List.cons_append, List.nil_append]
    unfold hasTripleNL
    rw [hpre1, h]
    simp
  · simp only [List.replicate, List.cons_append, List.nil_append]
    unfold hasTripleNL
    have hx2 : listPrefix ['\n', '\n'] ('\n' :: X) = false := by
      apply hpre2
      rcases hX with rfl | ⟨d, t', rfl, hd⟩
      · rfl
      · simp only [listPrefix]
        have : ¬d = '\n' := by simpa [isNl] using hd
        simp only [Bool.and_eq_false_iff, decide_eq_false_iff_not]
        left
        exact fun he => this he.symm
    unfold hasTripleNL
    rw [hx2, hpre1, h]
    simp

/-- Collapsing leaves no run of three newlines behind. -/
theorem hasTripleNL_collapseNl (l : List Char) :
    hasTripleNL (collapseNl l) = false := by
  induction l using collapseNl.induct with
  | case1 => rw [collapseNl_nil]; rfl
  | case2 c t hc ih =>
    rw [collapseNl_cons_nl t hc]
    have hrest := dropWhile_head_shape isNl (c :: t)
    have hshape : collapseNl ((c :: t).dropWhile isNl) = [] ∨
        ∃ d t', collapseNl ((c :: t).dropWhile isNl) = d :: t'
          ∧ isNl d = false := by
      rcases hrest with he | ⟨d, t', he, hd⟩
      · rw [he, collapseNl_nil]; exact Or.inl rfl
      · rw [he, collapseNl_cons_not_nl t' (by simp [hd])]
        exact Or.inr ⟨d, collapseNl t', rfl, hd⟩
    by_cases h3 : 3 ≤ ((c :: t).takeWhile isNl).length
    · rw [if_pos h3]
      have : (['\n', '\n'] : List Char) = List.replicate 2 '\n' := rfl
      rw [this]
      exact hasTripleNL_replicate_append (by omega) _ hshape ih
    · rw [if_neg h3]
      rw [takeWhile_isNl_eq_replicate (c :: t)]
      exact hasTripleNL_replicate_append (by omega) _ hshape ih
  | case3 c t hc ih =>
    rw [collapseNl_cons_not_nl t hc]
    unfold hasTripleNL
    rw [ih]
    simp only [Bool.or_false, Bool.and_eq_false_iff]
    left
    simpa using hc

/-- A string with no triple-newline run is a fixed point of the
collapse. -/
theorem collapseNl_of_noTriple {l : List Char}
    (h : hasTripleNL l = false) : collapseNl l = l := by
  induction l using collapseNl.induct with
  | case1 => exact collapseNl_nil
  | case2 c t hc ih =>
    have h3 : ¬3 ≤ ((c :: t).takeWhile isNl).length := by
      intro h3
      have htw : (c :: t).takeWhile isNl = c :: t.takeWhile isNl := by
        rw [List.takeWhile_cons, if_pos hc]
      rw [htw] at h3
      simp only [List.length_cons] at h3
      have h2 : 2 ≤ (t.takeWhile isNl).length := by omega
      have hrep := takeWhile_isNl_eq_replicate t
      have hpre : listPrefix ['\n', '\n'] t = true := by
        have hp : t.takeWhile isNl <+: t := List.takeWhile_prefix _
        have : (['\n', '\n'] : List Char) <+: t.takeWhile isNl := by
          rw [hrep]
          obtain ⟨k, hk⟩ : ∃ k, (t.takeWhile isNl).length = 2 + k :=
            ⟨(t.takeWhile isNl).length - 2, by omega⟩
          rw [hk]
          have : List.replicate (2 + k) '\n'
              = List.replicate 2 '\n' ++ List.replicate k '\n' :=
            List.replicate_add 2 k '\n'
          rw [this]
          exact List.prefix_append ..
        rw [listPrefix_iff_isPrefix]
        exact this.trans hp
      unfold hasTripleNL at h
      rw [hc, hpre] at h
      simp at h
    rw [collapseNl_cons_nl t hc, if_neg h3]
    obtain ⟨n, hn⟩ := dropWhile_eq_drop isNl (c :: t)
    have hrest : hasTripleNL ((c :: t).dropWhile isNl) = false := by
      rw [hn]; exact hasTripleNL_drop n h
    rw [ih hrest]
    exact List.takeWhile_append_dropWhile ..
  | case3 c t hc ih =>
    rw [collapseNl_cons_not_nl t hc, ih (hasTripleNL_tail h)]

theorem getLast?_cons_of_ne_nil {c : Char} {t : List Char} (h : t ≠ []) :
    (c :: t).getLast? = t.getLast? := by
  have := List.getLast?_append_of_ne_nil [c] h
  simpa using this

/-- The right-stripped string never ends in whitespace. -/
theorem rstripList_getLast (l : List Char) :
    ∀ x, (rstripList l).getLast? = some x → pyIsSpace x = false := by
  induction l with
  | nil => intro x hx; simp [rstripList] at hx
  | cons c t ih =>
    intro x hx
    by_cases hcond : rstripList t = [] ∧ pyIsSpace c = true
    · rw [rstripList, if_pos hcond] at hx
      simp at hx
    · rw [rstripList, if_neg hcond] at hx
      by_cases hre : rstripList t = []
      · rw [hre] at hx
        obtain rfl : c = x := by simpa using hx
        cases hws : pyIsSpace c with
        | false => rfl
        | true => exact absurd ⟨hre, hws⟩ hcond
      · rw [getLast?_cons_of_ne_nil hre] at hx
        exact ih x hx

/-- A string that does not end in whitespace is a fixed point of
`rstripList`. -/
theorem rstripList_id_of_getLast {l : List Char}
    (h : ∀ x, l.getLast? = some x → pyIsSpace x = false) :
    rstripList l = l := by
  induction l with
  | nil => rfl
  | cons c t ih =>
    by_cases ht : t = []
    · subst ht
      have hc := h c (by simp)
      rw [rstripList, if_neg (by simp [hc])]
      rfl
    · have h2 : ∀ x, t.getLast? = some x → pyIsSpace x = false := by
        intro x hx
        exact h x (by rw [getLast?_cons_of_ne_nil ht]; exact hx)
      have h3 := ih h2
      rw [rstripList, if_neg (by rw [h3]; simp [ht]), h3]

/-- Collapsing preserves "does not end in whitespace". -/
theorem collapseNl_getLast_pres (l : List Char)
    (h : ∀ x, l.getLast? = some x → pyIsSpace x = false) :
    ∀ x, (collapseNl l).getLast? = some x → pyIsSpace x = false := by
  induction l using collapseNl.induct with
  | case1 =>
    intro x hx
    rw [collapseNl_nil] at hx
    simp at hx
  | case2 c t hc ih =>
    intro x hx
    rcases dropWhile_head_shape isNl (c :: t) with he | ⟨d, t', he, hd⟩
    · exfalso
      have hall : ∀ y ∈ c :: t, isNl y = true :=
        List.dropWhile_eq_nil_iff.mp he
      obtain ⟨z, hz⟩ : ∃ z, (c :: t).getLast? = some z := by
        cases hlz : (c :: t).getLast? with
        | none => exact absurd (List.getLast?_eq_none_iff.mp hlz) (by simp)
        | some z => exact ⟨z, rfl⟩
      have hzmem := List.mem_of_mem_getLast? hz
      have hznl : z = '\n' := by simpa [isNl] using hall z hzmem
      have hzws := h z hz
      rw [hznl] at hzws
      simp [pyIsSpace] at hzws
    · have hrestne : (c :: t).dropWhile isNl ≠ [] := by rw [he]; simp
      have hlast_l : (c :: t).getLast? = ((c :: t).dropWhile isNl).getLast? := by
        conv_lhs => rw [← List.takeWhile_append_dropWhile (p := isNl)
          (l := c :: t)]
        exact List.getLast?_append_of_ne_nil _ hrestne
      have h2 : ∀ y, ((c :: t).dropWhile isNl).getLast? = some y →
          pyIsSpace y = false := by
        intro y hy
        exact h y (by rw [hlast_l]; exact hy)
      rw [collapseNl_cons_nl t hc] at hx
      have hcolne : collapseNl ((c :: t).dropWhile isNl) ≠ [] :=
        collapseNl_ne_nil hrestne
      rw [List.getLast?_append_of_ne_nil _ hcolne] at hx
      exact ih h2 x hx
  | case3 c t hc ih =>
    intro x hx
    rw [collapseNl_cons_not_nl t hc] at hx
    by_cases hte : t = []
    · subst hte
      rw [collapseNl_nil] at hx
      obtain rfl : c = x := by simpa using hx
      exact h c (by simp)
    · have hcolne : collapseNl t ≠ [] := collapseNl_ne_nil hte
      rw [getLast?_cons_of_ne_nil hcolne] at hx
      have h2 : ∀ y, t.getLast? = some y → pyIsSpace y = false := by
        intro y hy
        exact h y (by rw [getLast?_cons_of_ne_nil hte]; exact hy)
      exact ih h2 x hx

/-- The leading character of the stripped string, when any, is
non-whitespace. -/
theorem pyStrip_head_shape (s : List Char) :
    pyStrip s = [] ∨
      ∃ c t, pyStrip s = c :: t ∧ pyIsSpace c = false := by
  unfold pyStrip
  rcases dropWhile_head_shape pyIsSpace s with he | ⟨c, t, he, hc⟩
  · rw [he]; exact Or.inl rfl
  · rw [he]
    rw [rstripList]
    by_cases hcond : rstripList t = [] ∧ pyIsSpace c = true
    · rw [if_pos hcond]; exact Or.inl rfl
    · rw [if_neg hcond]
      exact Or.inr ⟨c, rstripList t, rfl, hc⟩

/-! ## Claim C8 — idempotent cleaning -/

/-- C8: on a string with no directive-block tags, `clean_output` is
whitespace normalization only (strip, then collapse newline runs of
three or more to two), and cleaning is idempotent there. -/
theorem clean_output_spec (s : List Char) (h : noDirectiveTags s = true) :
    clean_output s = collapseNl (pyStrip s)
    ∧ clean_output (clean_output s) = clean_output s := by
  have h1 : clean_output s = collapseNl (pyStrip s) := by
    unfold clean_output
    rw [removeAllBlocks_id h]
  refine ⟨h1, ?_⟩
  have key : ∀ pat : List Char, pat.all (fun c => !isNl c) = true →
      occursB pat s = false →
      occursB pat (collapseNl (pyStrip s)) = false := by
    intro pat hfree hocc
    cases hoy : occursB pat (collapseNl (pyStrip s)) with
    | false => rfl
    | true =>
      exfalso
      have h2 := collapseNl_occursB_pres (pyStrip s) pat hfree hoy
      have h3 := occursB_pyStrip h2
      rw [hocc] at h3
      cases h3
  have htags : noDirectiveTags (collapseNl (pyStrip s)) = true := by
    unfold noDirectiveTags at h ⊢
    simp only [Bool.and_eq_true, Bool.not_eq_true'] at h ⊢
    obtain ⟨⟨⟨ha, hb⟩, hd⟩, he⟩ := h
    exact ⟨⟨⟨key _ (by decide) ha, key _ (by decide) hb⟩,
      key _ (by decide) hd⟩, key _ (by decide) he⟩
  have hclean_y : clean_output (collapseNl (pyStrip s))
      = collapseNl (pyStrip (collapseNl (pyStrip s))) := by
    unfold clean_output
    rw [removeAllBlocks_id htags]
  have hstrip : pyStrip (collapseNl (pyStrip s)) = collapseNl (pyStrip s) := by
    have hhead : collapseNl (pyStrip s) = [] ∨
        ∃ c t, collapseNl (pyStrip s) = c :: t ∧ pyIsSpace c = false := by
      rcases pyStrip_head_shape s with he | ⟨c, t, he, hc⟩
      · left; rw [he, collapseNl_nil]
      · right
        have hcnl : ¬isNl c = true := by
          intro hnl
          have : c = '\n' := by simpa [isNl] using hnl
          rw [this] at hc
          simp [pyIsSpace] at hc
        exact ⟨c, collapseNl t, by rw [he, collapseNl_cons_not_nl t hcnl], hc⟩
    have hlast : ∀ x, (collapseNl (pyStrip s)).getLast? = some x →
        pyIsSpace x = false := by
      apply collapseNl_getLast_pres
      intro x hx
      exact rstripList_getLast _ x hx
    have hdw : (collapseNl (pyStrip s)).dropWhile pyIsSpace
        = collapseNl (pyStrip s) := by
      rcases hhead with he | ⟨c, t, he, hc⟩
      · rw [he]; rfl
      · rw [he, List.dropWhile_cons, if_neg (by simp [hc])]
    have hunf : pyStrip (collapseNl (pyStrip s))
        = rstripList ((collapseNl (pyStrip s)).dropWhile pyIsSpace) := rfl
    rw [hunf, hdw]
    exact rstripList_id_of_getLast hlast
  rw [h1, hclean_y, hstrip]
  exact collapseNl_of_noTriple (hasTripleNL_collapseNl (pyStrip s))

theorem clean_output_spec_witness :
    clean_output "  Line 1\n\n\n\nLine 2  ".data
      = collapseNl (pyStrip "  Line 1\n\n\n\nLine 2  ".data)
    ∧ clean_output (clean_output "  Line 1\n\n\n\nLine 2  ".data)
      = clean_output "  Line 1\n\n\n\nLine 2  ".data :=
  clean_output_spec "  Line 1\n\n\n\nLine 2  ".data (by decide)

/-! ## Python run-time values

`inductive PyVal` models the Python values that can flow through a
parsed JSON payload and the tool schemas: `None`, `bool`, `int`,
`float`, `str`, `list`, `dict`.  The numeric payload of a float is
dropped: none of the embedded functions inspects it (a float can only
influence them through `isinstance` and truthiness checks, and in every
gated position both outcomes lead to the same observable result).
Python dicts appear as association lists in insertion order with the
first binding of a key the visible one. -/

inductive PyVal where
  | none : PyVal
  | bool : Bool → PyVal
  | int : Int → PyVal
  | float : PyVal
  | str : List Char → PyVal
  | list : List PyVal → PyVal
  | dict : List (List Char × PyVal) → PyVal

/-- A Python dict with string keys (`Dict[str, Any]`). -/
abbrev PyDict : Type := List (List Char × PyVal)

mutual

/-- Python `==` on JSON-derived values (structural equality; the exotic
cross-type cases `True == 1` and float/int comparisons are outside the
modelled domain — tool names and schema fields are strings). -/
def pyValBeq : PyVal → PyVal → Bool
  | .none, .none => true
  | .bool a, .bool b => a = b
  | .int a, .int b => a = b
  | .float, .float => true
  | .str a, .str b => a = b
  | .list a, .list b => pyListBeq a b
  | .dict a, .dict b => pyDictBeq a b
  | _, _ => false

def pyListBeq : List PyVal → List PyVal → Bool
  | [], [] => true
  | x :: xs, y :: ys => pyValBeq x y && pyListBeq xs ys
  | _, _ => false

def pyDictBeq : List (List Char × PyVal) → List (List Char × PyVal) → Bool
  | [], [] => true
  | (k1, v1) :: xs, (k2, v2) :: ys =>
    k1 = k2 && pyValBeq v1 v2 && pyDictBeq xs ys
  | _, _ => false

end

/-- `type(v).__name__`. -/
def pyTypeName : PyVal → List Char
  | .none => "NoneType".data
  | .bool _ => "bool".data
  | .int _ => "int".data
  | .float => "float".data
  | .str _ => "str".data
  | .list _ => "list".data
  | .dict _ => "dict".data

/-- Python truthiness.  (The float case returns `true`; the real value
depends on the dropped payload, but every embedded use of truthiness on
a float guards branches whose outcome does not depend on it.) -/
def pyTruthy : PyVal → Bool
  | .none => false
  | .bool b => b
  | .int n => n ≠ 0
  | .float => true
  | .str s => s ≠ []
  | .list l => !l.isEmpty
  | .dict d => !d.isEmpty

/-- `isinstance(v, int)` — Python `bool` is a subclass of `int`. -/
def isInstInt : PyVal → Bool
  | .int _ => true
  | .bool _ => true
  | _ => false

/-- `isinstance(v, (int, float))`. -/
def isInstIntOrFloat : PyVal → Bool
  | .int _ => true
  | .bool _ => true
  | .float => true
  | _ => false

/-- `isinstance(v, str)`. -/
def isInstStr : PyVal → Bool
  | .str _ => true
  | _ => false

/-- `isinstance(v, bool)`. -/
def isInstBool : PyVal → Bool
  | .bool _ => true
  | _ => false

/-- Python `==` between a JSON-derived value and a string literal: true
exactly for the equal string.  (No non-string JSON value compares equal
to a `str` in Python.) -/
def pyEqStr (v : PyVal) (lit : List Char) : Bool :=
  match v with
  | .str s => s = lit
  | _ => false

/-- `str(v)` as interpolated into the f-string error messages.  Only
the string case is exercised by the embedded messages; the rendering of
containers and floats is not modelled bit-exactly (no claim depends on
it). -/
def pyStr : PyVal → List Char
  | .str s => s
  | .none => "None".data
  | .bool true => "True".data
  | .bool false => "False".data
  | .int n => (toString n).data
  | .float => "<float>".data
  | .list _ => "<list>".data
  | .dict _ => "<dict>".data

def typeKey : List Char := "type".data
def toolNameKey : List Char := "tool_name".data
def argumentsKey : List Char := "arguments".data
def requiredKey : List Char := "required".data

/-- `sep.join(parts)`. -/
def joinSep (sep : List Char) : List (List Char) → List Char
  | [] => []
  | [x] => x
  | x :: y :: xs => x ++ sep ++ joinSep sep (y :: xs)

/-! ## `validate_tool_arguments` — src/jiki/utils.py lines 58–95

```python
def validate_tool_arguments(arguments, expected_args, required_args):
    missing_args = [k for k in required_args if k not in arguments]
    type_mismatches = []
    for arg_name, arg_value in arguments.items():
        if arg_name in expected_args:
            expected_type = expected_args[arg_name].get("type")
            if expected_type:
                if expected_type == "integer" and not isinstance(arg_value, int):
                    type_mismatches.append(f"{arg_name} (expected integer, got {type(arg_value).__name__})")
                elif expected_type == "number" and not isinstance(arg_value, (int, float)):
                    ...
                elif expected_type == "string" and not isinstance(arg_value, str):
                    ...
                elif expected_type == "boolean" and not isinstance(arg_value, bool):
                    ...
    return missing_args, type_mismatches
```

`expected_args : Dict[str, Dict[str, Any]]` per the annotation, so each
argument's schema is itself a dict.  The `for` loop appends at most one
message per argument, in iteration order: a `filterMap`. -/

/-- `f"{arg_name} (expected {ty}, got {type(arg_value).__name__})"`. -/
def mismatchMsg (arg_name ty : List Char) (arg_value : PyVal) : List Char :=
  arg_name ++ " (expected ".data ++ ty ++ ", got ".data
    ++ pyTypeName arg_value ++ ")".data

/-- One iteration of the type-checking loop. -/
def checkOneArg (expected_args : List (List Char × PyDict))
    (arg_name : List Char) (arg_value : PyVal) : Option (List Char) :=
  match List.lookup arg_name expected_args with
  | Option.none => Option.none
  | some schema =>
    let expected_type : PyVal := (List.lookup typeKey schema).getD PyVal.none
    if pyTruthy expected_type then
      if pyEqStr expected_type "integer".data && !isInstInt arg_value then
        some (mismatchMsg arg_name "integer".data arg_value)
      else if pyEqStr expected_type "number".data
          && !isInstIntOrFloat arg_value then
        some (mismatchMsg arg_name "number".data arg_value)
      else if pyEqStr expected_type "string".data && !isInstStr arg_value then
        some (mismatchMsg arg_name "string".data arg_value)
      else if pyEqStr expected_type "boolean".data && !isInstBool arg_value then
        some (mismatchMsg arg_name "boolean".data arg_value)
      else Option.none
    else Option.none

def validate_tool_arguments (arguments : PyDict)
    (expected_args : List (List Char × PyDict))
    (required_args : List (List Char)) :
    List (List Char) × List (List Char) :=
  (required_args.filter (fun k => (List.lookup k arguments).isNone),
   arguments.filterMap (fun p => checkOneArg expected_args p.1 p.2))

/-! ## `categorize_error` — src/jiki/utils.py lines 98–131

A raised exception is its type's name plus `str(error)`. -/

structure PyExc where
  typeName : List Char
  msg : List Char

def categorize_error (error : PyExc) : List Char × List Char :=
  if occursB "ConnectionRefused".data error.typeName
      || occursB "ConnectionError".data error.typeName then
    ("CONNECTION".data,
     "Could not connect to the tool server. The server may be down or unreachable.".data)
  else if occursB "Timeout".data error.typeName then
    ("TIMEOUT".data,
     "The tool execution timed out. The operation may have taken too long to complete.".data)
  else if occursB "ValueError".data error.typeName then
    ("VALUE".data, "Invalid value provided to the tool: ".data ++ error.msg)
  else if occursB "KeyError".data error.typeName then
    ("KEY".data, "Missing key in tool arguments: ".data ++ error.msg)
  else if occursB "TypeError".data error.typeName then
    ("TYPE".data, "Type error in tool execution: ".data ++ error.msg)
  else
    ("GENERAL".data,
     "An error occurred during tool execution: ".data ++ error.msg)

/-- `format_argument_descriptions` — src/jiki/utils.py lines 134–155. -/
def format_argument_descriptions (expected_args : List (List Char × PyDict))
    (required_args : List (List Char)) : List (List Char) :=
  expected_args.map (fun p =>
    "  - ".data ++ p.1 ++ " (".data
      ++ pyStr ((List.lookup typeKey p.2).getD (.str "any".data))
      ++ ", ".data
      ++ (if required_args.contains p.1 then "required".data
          else "optional".data)
      ++ "): ".data
      ++ pyStr ((List.lookup "description".data p.2).getD (.str [])))

/-! ## `JikiOrchestrator._handle_tool_call` — src/jiki/orchestrator.py 221–360

The orchestrator parses the block content with `repair_json`, extracts
`tool_name` / `arguments`, validates against `tools_config`, and
dispatches through the MCP client.  `json.loads` appears as the
parameter `loads`; `self.mcp_client.execute_tool_call` as the parameter
`execute_tool_call` (returning the result string or raising, i.e.
`Except PyExc`).  The returned pair is the updated `_last_tool_calls`
list and the result content string returned for context injection
(logging side effects are not modelled). -/

/-- `ToolCall` — src/jiki/models/response.py. -/
structure ToolCall where
  tool : PyVal
  arguments : PyDict
  result : List Char

/-- `raw_args = tool_call.get("arguments", {});
arguments = raw_args if isinstance(raw_args, dict) else {}`
(orchestrator.py lines 254–255). -/
def payloadArguments (tool_call : PyVal) : PyDict :=
  match tool_call with
  | .dict d =>
    match (List.lookup argumentsKey d).getD (.dict []) with
    | .dict a => a
    | _ => []
  | _ => []

/-- `tool_name = tool_call.get("tool_name")` (orchestrator.py 253). -/
def payloadToolName (tool_call : PyVal) : PyVal :=
  match tool_call with
  | .dict d => (List.lookup toolNameKey d).getD .none
  | _ => .none

/-- The `not tool_name` error text (orchestrator.py 259–266). -/
def missingNameError (parsing_method : List Char)
    (parsing_error : Option (List Char)) : List Char :=
  let base := "Missing or invalid 'tool_name' field in the JSON object.".data
  let detailed :=
    if parsing_method = "direct".data then base
    else base ++ " JSON parsing method: ".data ++ parsing_method ++ ".".data
      ++ (match parsing_error with
          | some e => " Error: ".data ++ e
          | Option.none => [])
  "ERROR: Invalid tool call. ".data ++ detailed
    ++ " Please provide a valid JSON object with 'tool_name' and 'arguments' fields.".data

/-- The unknown-tool error text (orchestrator.py 274–284), enumerating
the configured tools whose `tool_name` field is truthy. -/
def notFoundError (tool_name : PyVal) (tools_config : List PyDict) :
    List Char :=
  let available := tools_config.filterMap (fun t =>
    let n := (List.lookup toolNameKey t).getD .none
    if pyTruthy n then some (pyStr n) else Option.none)
  "ERROR: Tool '".data ++ pyStr tool_name
    ++ "' not found. Available tools are: ".data
    ++ joinSep ", ".data available

/-- The invalid-arguments error text (orchestrator.py 295–310). -/
def invalidArgsError (tool_name : PyVal) (missing_args : List (List Char))
    (type_mismatches : List (List Char))
    (expected_args : List (List Char × PyDict))
    (required_args : List (List Char)) : List Char :=
  let error_details :=
    (if missing_args.isEmpty then []
     else ["Missing required arguments: ".data
            ++ joinSep ", ".data missing_args])
    ++ (if type_mismatches.isEmpty then []
        else ["Type mismatches: ".data ++ joinSep ", ".data type_mismatches])
  let arg_descriptions :=
    format_argument_descriptions expected_args required_args
  "ERROR: Invalid arguments for tool '".data ++ pyStr tool_name
    ++ "'.\n".data ++ joinSep "; ".data error_details ++ "\n\n".data
    ++ "Expected arguments:\n".data
    ++ joinSep "\n".data arg_descriptions

/-- The execution-failure error text (orchestrator.py 348–356). -/
def execFailureError (e : PyExc) (tool_name : PyVal) : List Char :=
  let c := categorize_error e
  "ERROR (".data ++ c.1 ++ "): Failed to execute tool '".data
    ++ pyStr tool_name ++ "'.\n".data ++ c.2
    ++ "\nPlease check your inputs and try again.".data

/-- The dispatch step (orchestrator.py 319–360): call the executor
once; on success append a `ToolCall` record and return the content; on
an exception categorize it and return the diagnostic — without
appending a record. -/
def dispatch_tool (execute_tool_call : PyVal → PyDict → Except PyExc (List Char))
    (tool_name : PyVal) (arguments : PyDict)
    (last_tool_calls : List ToolCall) : List ToolCall × List Char :=
  match execute_tool_call tool_name arguments with
  | .ok content =>
    (last_tool_calls ++ [⟨tool_name, arguments, content⟩], content)
  | .error e => (last_tool_calls, execFailureError e tool_name)

/-- `expected_args = tool_schema.get("arguments", {})` — the values of
this dict must themselves be dicts (`Dict[str, Dict[str, Any]]`; the
code immediately calls `.get` on them, so non-dict entries are outside
the modelled domain and are skipped). -/
def schemaExpectedArgs (tool_schema : PyDict) :
    List (List Char × PyDict) :=
  match List.lookup argumentsKey tool_schema with
  | some (.dict d) => d.filterMap (fun kv =>
      match kv.2 with
      | .dict sd => some (kv.1, sd)
      | _ => Option.none)
  | _ => []

/-- `required_args = tool_schema.get("required", [])` — declared as a
list of argument names; non-string entries are outside the modelled
domain and are skipped. -/
def schemaRequired (tool_schema : PyDict) : List (List Char) :=
  match List.lookup requiredKey tool_schema with
  | some (.list l) => l.filterMap (fun v =>
      match v with
      | .str s => some s
      | _ => Option.none)
  | _ => []

/-- The validation-and-dispatch phase of `_handle_tool_call`
(orchestrator.py 259–360), taking the already-extracted payload
fields. -/
def handle_with_payload
    (execute_tool_call : PyVal → PyDict → Except PyExc (List Char))
    (tools_config : List PyDict) (tool_name : PyVal) (arguments : PyDict)
    (parsing_method : List Char) (parsing_error : Option (List Char))
    (last_tool_calls : List ToolCall) : List ToolCall × List Char :=
  if !pyTruthy tool_name then
    (last_tool_calls, missingNameError parsing_method parsing_error)
  else
    match tools_config.find? (fun t =>
        pyValBeq ((List.lookup toolNameKey t).getD .none) tool_name) with
    | Option.none => (last_tool_calls, notFoundError tool_name tools_config)
    | some tool_schema =>
      let expected_args := schemaExpectedArgs tool_schema
      let required_args := schemaRequired tool_schema
      let v := validate_tool_arguments arguments expected_args required_args
      if !v.1.isEmpty || !v.2.isEmpty then
        (last_tool_calls,
         invalidArgsError tool_name v.1 v.2 expected_args required_args)
      else
        dispatch_tool execute_tool_call tool_name arguments last_tool_calls

def handle_tool_call (loads : List Char → Except (List Char) PyVal)
    (execute_tool_call : PyVal → PyDict → Except PyExc (List Char))
    (tools_config : List PyDict) (call_content : List Char)
    (last_tool_calls : List ToolCall) : List ToolCall × List Char :=
  let r := repair_json loads (PyVal.dict []) call_content
  handle_with_payload execute_tool_call tools_config
    (payloadToolName r.1) (payloadArguments r.1) r.2.1 r.2.2
    last_tool_calls

/-! ## Per-turn context management — `process_user_input`
(src/jiki/orchestrator.py 114–142) and the generation loop
(`_generate_and_intercept`, 144–212; `generate_and_intercept` in
src/jiki/utils/streaming.py does the same context mutations at lines
101–102).

The model backend is scripted: each completed tool round contributes
the pair (assistant raw output up to and including the tool-call block,
tool result content), and the loop appends exactly the two messages
`{"role": "assistant", ...}` and `{"role": "system",
"<mcp_tool_result>..."}` per round; the final pass contributes the
closing assistant message appended by `process_user_input` line 141.
`build_initial_prompt`'s text is opaque here (`bootstrap`). -/

structure Msg where
  role : List Char
  content : List Char

def resultBlock (content : List Char) : List Char :=
  "<mcp_tool_result>\n".data ++ content ++ "\n</mcp_tool_result>".data

/-- Context growth of `_generate_and_intercept` (orchestrator.py
187–188): each intercepted tool call appends the assistant output so
far, then the tool-result block. -/
def runToolRounds (rounds : List (List Char × List Char)) (ctx : List Msg) :
    List Msg :=
  match rounds with
  | [] => ctx
  | (combined_output, tool_result) :: rest =>
    runToolRounds rest
      (ctx ++ [⟨"assistant".data, combined_output⟩,
               ⟨"system".data, resultBlock tool_result⟩])

/-- `process_user_input` (orchestrator.py 114–142): bootstrap or append
the user message, trim once against the token budget, run the
generation loop (its tool rounds append to the context), then append
the final assistant answer. -/
def process_user_input (num_tokens : List Msg → Nat) (max_tokens_ctx : Nat)
    (bootstrap : List Char) (user_input : List Char) (messages : List Msg)
    (rounds : List (List Char × List Char)) (final_answer : List Char) :
    List Msg :=
  let m1 := if messages.isEmpty then [⟨"system".data, bootstrap⟩]
            else messages ++ [⟨"user".data, user_input⟩]
  let m2 := trim_context num_tokens max_tokens_ctx m1
  let m3 := runToolRounds rounds m2
  m3 ++ [⟨"assistant".data, final_answer⟩]

/-! ## Claim C1 — recording of dispatch attempts -/

/-- C1 counterexample: with tool `add` configured and a payload naming
it, a dispatch whose executor raises leaves `_last_tool_calls` empty,
while the same dispatch succeeding appends one record — so a failed
dispatch attempt is *not* recorded, contradicting the claim that the
attempt is appended "exactly as it does on success". -/
theorem handle_tool_call_failure_unrecorded_cex :
    (handle_tool_call
      (fun _ => Except.ok (.dict [(toolNameKey, .str "add".data)]))
      (fun _ _ => Except.error ⟨"ValueError".data, "bad input".data⟩)
      [[(toolNameKey, PyVal.str "add".data)]] "c".data []).1 = []
    ∧ (handle_tool_call
      (fun _ => Except.ok (.dict [(toolNameKey, .str "add".data)]))
      (fun _ _ => Except.ok "4".data)
      [[(toolNameKey, PyVal.str "add".data)]] "c".data []).1
        = [⟨.str "add".data, [], "4".data⟩] :=
  ⟨rfl, rfl⟩

/-- C1 (amended): the dispatcher appends a `ToolCallRecord` only on a
successful execution; when the executor raises, the error is
categorized and returned as the result content and the record list is
returned unchanged (`last_tool_calls` counts only the successful
dispatches of the turn). -/
theorem dispatch_tool_records_spec
    (execute_tool_call : PyVal → PyDict → Except PyExc (List Char))
    (tool_name : PyVal) (arguments : PyDict) (recs : List ToolCall) :
    (∀ content, execute_tool_call tool_name arguments = .ok content →
      dispatch_tool execute_tool_call tool_name arguments recs
        = (recs ++ [⟨tool_name, arguments, content⟩], content))
    ∧ (∀ e, execute_tool_call tool_name arguments = .error e →
      dispatch_tool execute_tool_call tool_name arguments recs
        = (recs, execFailureError e tool_name)) := by
  constructor
  · intro content h
    unfold dispatch_tool
    rw [h]
  · intro e h
    unfold dispatch_tool
    rw [h]

theorem dispatch_tool_records_spec_witness :
    dispatch_tool (fun _ _ => Except.ok "4".data)
        (PyVal.str "add".data) [] []
      = ([⟨PyVal.str "add".data, [], "4".data⟩], "4".data)
    ∧ dispatch_tool
        (fun _ _ => Except.error ⟨"TimeoutError".data, "slow".data⟩)
        (PyVal.str "add".data) [] []
      = ([], execFailureError ⟨"TimeoutError".data, "slow".data⟩
          (PyVal.str "add".data)) :=
  ⟨(dispatch_tool_records_spec (fun _ _ => Except.ok "4".data)
      (PyVal.str "add".data) [] []).1 "4".data rfl,
   (dispatch_tool_records_spec
      (fun _ _ => Except.error ⟨"TimeoutError".data, "slow".data⟩)
      (PyVal.str "add".data) [] []).2
      ⟨"TimeoutError".data, "slow".data⟩ rfl⟩

/-! ## Claim C2 — type checking coverage -/

/-- C2 counterexample: the schema declares `a : array` and the supplied
value is the integer 5 — an incompatible type — yet validation reports
neither a missing argument nor a type mismatch, so it does not fail as
the claim requires. -/
theorem validate_array_unchecked_cex :
    validate_tool_arguments [("a".data, PyVal.int 5)]
      [("a".data, [(typeKey, PyVal.str "array".data)])] ["a".data]
      = ([], []) := rfl

/-- C2 (amended): mismatches are reported per argument, with the
expected and the actual type, for exactly the four declared types
`integer`, `number`, `string`, `boolean` (an incompatible value for one
of these yields the formatted message); declarations of `array`,
`object`, `null`, or of a union (a list of types) are never checked, so
any value passes them. -/
theorem validate_type_check_spec :
    (∀ (args : PyDict) (e : List (List Char × PyDict))
        (req : List (List Char)),
      (validate_tool_arguments args e req).2
        = args.filterMap (fun p => checkOneArg e p.1 p.2))
    ∧ (∀ e n sch v, List.lookup n e = some sch →
        List.lookup typeKey sch = some (.str "integer".data) →
        isInstInt v = false →
        checkOneArg e n v = some (mismatchMsg n "integer".data v))
    ∧ (∀ e n sch v, List.lookup n e = some sch →
        List.lookup typeKey sch = some (.str "number".data) →
        isInstIntOrFloat v = false →
        checkOneArg e n v = some (mismatchMsg n "number".data v))
    ∧ (∀ e n sch v, List.lookup n e = some sch →
        List.lookup typeKey sch = some (.str "string".data) →
        isInstStr v = false →
        checkOneArg e n v = some (mismatchMsg n "string".data v))
    ∧ (∀ e n sch v, List.lookup n e = some sch →
        List.lookup typeKey sch = some (.str "boolean".data) →
        isInstBool v = false →
        checkOneArg e n v = some (mismatchMsg n "boolean".data v))
    ∧ (∀ e n sch v ty, List.lookup n e = some sch →
        List.lookup typeKey sch = some ty →
        (ty = .str "array".data ∨ ty = .str "object".data
          ∨ ty = .str "null".data ∨ ∃ l, ty = .list l) →
        checkOneArg e n v = Option.none) := by
  have iff0 : ∀ (b : Bool) (x y : Option (List Char)),
      (if (false && b) = true then x else y) = y := by
    intro b x y; simp
  refine ⟨fun _ _ _ => rfl, ?_, ?_, ?_, ?_, ?_⟩
  · intro e n sch v h1 h2 h3
    unfold checkOneArg
    rw [h1]
    simp only [h2, Option.getD_some]
    rw [if_pos (by decide)]
    rw [if_pos (by rw [h3]; rfl)]
  · intro e n sch v h1 h2 h3
    unfold checkOneArg
    rw [h1]
    simp only [h2, Option.getD_some]
    rw [if_pos (by decide)]
    rw [show pyEqStr (PyVal.str "number".data) "integer".data = false
      from by decide, iff0]
    rw [if_pos (by rw [h3]; rfl)]
  · intro e n sch v h1 h2 h3
    unfold checkOneArg
    rw [h1]
    simp only [h2, Option.getD_some]
    rw [if_pos (by decide)]
    rw [show pyEqStr (PyVal.str "string".data) "integer".data = false
      from by decide, iff0]
    rw [show pyEqStr (PyVal.str "string".data) "number".data = false
      from by decide, iff0]
    rw [if_pos (by rw [h3]; rfl)]
  · intro e n sch v h1 h2 h3
    unfold checkOneArg
    rw [h1]
    simp only [h2, Option.getD_some]
    rw [if_pos (by decide)]
    rw [show pyEqStr (PyVal.str "boolean".data) "integer".data = false
      from by decide, iff0]
    rw [show pyEqStr (PyVal.str "boolean".data) "number".data = false
      from by decide, iff0]
    rw [show pyEqStr (PyVal.str "boolean".data) "string".data = false
      from by decide, iff0]
    rw [if_pos (by rw [h3]; rfl)]
  · intro e n sch v ty h1 h2 h3
    unfold checkOneArg
    rw [h1]
    simp only [h2, Option.getD_some]
    rcases h3 with rfl | rfl | rfl | ⟨l, rfl⟩
    · rw [if_pos (by decide)]
      rw [show pyEqStr (PyVal.str "array".data) "integer".data = false
        from by decide, iff0]
      rw [show pyEqStr (PyVal.str "array".data) "number".data = false
        from by decide, iff0]
      rw [show pyEqStr (PyVal.str "array".data) "string".data = false
        from by decide, iff0]
      rw [show pyEqStr (PyVal.str "array".data) "boolean".data = false
        from by decide, iff0]
    · rw [if_pos (by decide)]
      rw [show pyEqStr (PyVal.str "object".data) "integer".data = false
        from by decide, iff0]
      rw [show pyEqStr (PyVal.str "object".data) "number".data = false
        from by decide, iff0]
      rw [show pyEqStr (PyVal.str "object".data) "string".data = false
        from by decide, iff0]
      rw [show pyEqStr (PyVal.str "object".data) "boolean".data = false
        from by decide, iff0]
    · rw [if_pos (by decide)]
      rw [show pyEqStr (PyVal.str "null".data) "integer".data = false
        from by decide, iff0]
      rw [show pyEqStr (PyVal.str "null".data) "number".data = false
        from by decide, iff0]
      rw [show pyEqStr (PyVal.str "null".data) "string".data = false
        from by decide, iff0]
      rw [show pyEqStr (PyVal.str "null".data) "boolean".data = false
        from by decide, iff0]
    · rw [show pyEqStr (PyVal.list l) "integer".data = false from rfl, iff0]
      rw [show pyEqStr (PyVal.list l) "number".data = false from rfl, iff0]
      rw [show pyEqStr (PyVal.list l) "string".data = false from rfl, iff0]
      rw [show pyEqStr (PyVal.list l) "boolean".data = false from rfl, iff0]
      by_cases hl : pyTruthy (PyVal.list l) = true
      · rw [if_pos hl]
      · rw [if_neg hl]

theorem validate_type_check_spec_witness :
    checkOneArg [("a".data, [(typeKey, PyVal.str "integer".data)])]
        "a".data (PyVal.str "x".data)
      = some (mismatchMsg "a".data "integer".data (PyVal.str "x".data))
    ∧ checkOneArg [("a".data, [(typeKey, PyVal.str "object".data)])]
        "a".data (PyVal.int 7)
      = Option.none :=
  ⟨validate_type_check_spec.2.1
      [("a".data, [(typeKey, PyVal.str "integer".data)])] "a".data
      [(typeKey, PyVal.str "integer".data)] (PyVal.str "x".data)
      rfl rfl rfl,
   validate_type_check_spec.2.2.2.2.2
      [("a".data, [(typeKey, PyVal.str "object".data)])] "a".data
      [(typeKey, PyVal.str "object".data)] (PyVal.int 7)
      (PyVal.str "object".data) rfl rfl (Or.inr (Or.inl rfl))⟩

/-! ## Claim C3 — required-argument default -/

/-- C3 counterexample: a tool schema that declares argument `a` but
specifies no `required` set yields an empty required list, and
validating an *empty* argument mapping against it reports nothing
missing — the declared key `a` is not treated as required, contrary to
the claim's second half. -/
theorem required_default_empty_cex :
    schemaRequired [(argumentsKey,
        PyVal.dict [("a".data, PyVal.dict [(typeKey,
          PyVal.str "integer".data)])])] = []
    ∧ validate_tool_arguments []
        [("a".data, [(typeKey, PyVal.str "integer".data)])]
        (schemaRequired [(argumentsKey,
          PyVal.dict [("a".data, PyVal.dict [(typeKey,
            PyVal.str "integer".data)])])])
      = ([], []) :=
  ⟨rfl, rfl⟩

/-- C3 (amended): every name in the schema's `required` set absent from
the arguments is named in the missing list (which is exactly the
required names without a binding); but when the schema specifies no
`required` key the orchestrator defaults the required list to the empty
list, so no declared argument is treated as required and validation
reports nothing missing. -/
theorem validate_required_spec :
    (∀ (args : PyDict) (e : List (List Char × PyDict))
        (req : List (List Char)),
      (validate_tool_arguments args e req).1
        = req.filter (fun k => (List.lookup k args).isNone))
    ∧ (∀ (k : List Char) (req : List (List Char)) (args : PyDict)
        (e : List (List Char × PyDict)),
      k ∈ req → List.lookup k args = Option.none →
      k ∈ (validate_tool_arguments args e req).1)
    ∧ (∀ sch : PyDict, List.lookup requiredKey sch = Option.none →
        schemaRequired sch = [])
    ∧ (∀ (args : PyDict) (e : List (List Char × PyDict)),
        (validate_tool_arguments args e []).1 = []) := by
  refine ⟨fun _ _ _ => rfl, ?_, ?_, fun _ _ => rfl⟩
  · intro k req args e hk hnone
    unfold validate_tool_arguments
    simp only [List.mem_filter]
    exact ⟨hk, by rw [hnone]; rfl⟩
  · intro sch h
    unfold schemaRequired
    rw [h]

theorem validate_required_spec_witness :
    ("b".data : List Char) ∈ (validate_tool_arguments
      [("a".data, PyVal.int 2)]
      [("a".data, [(typeKey, PyVal.str "integer".data)])]
      ["a".data, "b".data]).1
    ∧ schemaRequired [(toolNameKey, PyVal.str "add".data)] = [] :=
  ⟨validate_required_spec.2.1 "b".data ["a".data, "b".data]
      [("a".data, PyVal.int 2)]
      [("a".data, [(typeKey, PyVal.str "integer".data)])]
      (by simp) rfl,
   validate_required_spec.2.2.1 [(toolNameKey, PyVal.str "add".data)] rfl⟩

/-! ## Claim C9 — booleans pass integer/number checks -/

/-- C9: because Python's `bool` is a subclass of `int`, `isinstance`
accepts `True`/`False` where `integer` or `number` is declared, so
validating a boolean value against such a declaration reports no type
mismatch. -/
theorem bool_passes_numeric_spec
    (e : List (List Char × PyDict)) (n : List Char) (sch : PyDict)
    (b : Bool) (req : List (List Char))
    (h1 : List.lookup n e = some sch)
    (h2 : List.lookup typeKey sch = some (.str "integer".data)
      ∨ List.lookup typeKey sch = some (.str "number".data)) :
    (validate_tool_arguments [(n, PyVal.bool b)] e req).2 = [] := by
  have hcheck : checkOneArg e n (PyVal.bool b) = Option.none := by
    unfold checkOneArg
    rw [h1]
    rcases h2 with h2 | h2
    · simp only [h2, Option.getD_some]
      rw [if_pos (by decide)]
      rw [if_neg (by simp [isInstInt])]
      rw [show pyEqStr (PyVal.str "integer".data) "number".data = false
        from by decide]
      rw [show pyEqStr (PyVal.str "integer".data) "string".data = false
        from by decide]
      rw [show pyEqStr (PyVal.str "integer".data) "boolean".data = false
        from by decide]
      simp
    · simp only [h2, Option.getD_some]
      rw [if_pos (by decide)]
      rw [show pyEqStr (PyVal.str "number".data) "integer".data = false
        from by decide]
      rw [if_neg (by simp), if_neg (by simp [isInstIntOrFloat])]
      rw [show pyEqStr (PyVal.str "number".data) "string".data = false
        from by decide]
      rw [show pyEqStr (PyVal.str "number".data) "boolean".data = false
        from by decide]
      simp
  unfold validate_tool_arguments
  simp only [List.filterMap]
  rw [hcheck]

theorem bool_passes_numeric_spec_witness :
    (validate_tool_arguments [("a".data, PyVal.bool true)]
      [("a".data, [(typeKey, PyVal.str "integer".data)])] ["a".data]).2
      = [] :=
  bool_passes_numeric_spec
    [("a".data, [(typeKey, PyVal.str "integer".data)])] "a".data
    [(typeKey, PyVal.str "integer".data)] true ["a".data]
    rfl (Or.inl rfl)

/-! ## Claim C4 — non-object arguments field -/

/-- C4 counterexample: the parsed payload names the configured tool
`add` and carries `arguments: [1, 2]` — present and an array, not an
object — yet the engine does not synthesize an error: it proceeds,
dispatches the call with the empty argument mapping, records it, and
returns the executor's result. -/
theorem nonobject_args_dispatched_cex :
    handle_tool_call
      (fun _ => Except.ok (.dict [(toolNameKey, PyVal.str "add".data),
        (argumentsKey, PyVal.list [PyVal.int 1, PyVal.int 2])]))
      (fun _ _ => Except.ok "4".data)
      [[(toolNameKey, PyVal.str "add".data)]]
      "c".data []
      = ([⟨PyVal.str "add".data, [], "4".data⟩], "4".data) := rfl

/-- C4 (amended): when the payload's arguments field is present but not
an object, the orchestrator silently replaces it with the empty mapping
(`arguments = raw_args if isinstance(raw_args, dict) else {}`) and
proceeds with validation and dispatch on that empty mapping; no
dedicated error for the non-object arguments is synthesized. -/
theorem nonobject_args_spec :
    (∀ (d : PyDict) (a : PyVal), List.lookup argumentsKey d = some a →
      (∀ x, a ≠ PyVal.dict x) → payloadArguments (PyVal.dict d) = [])
    ∧ (∀ loads exec cfg (s : List Char) recs,
        handle_tool_call loads exec cfg s recs
          = handle_with_payload exec cfg
              (payloadToolName (repair_json loads (PyVal.dict []) s).1)
              (payloadArguments (repair_json loads (PyVal.dict []) s).1)
              (repair_json loads (PyVal.dict []) s).2.1
              (repair_json loads (PyVal.dict []) s).2.2 recs) := by
  constructor
  · intro d a h hnd
    have hred : payloadArguments (PyVal.dict d)
        = match (List.lookup argumentsKey d).getD (PyVal.dict []) with
          | PyVal.dict a => a
          | _ => [] := rfl
    rw [hred, h]
    cases a with
    | dict x => exact absurd rfl (hnd x)
    | none => rfl
    | bool b => rfl
    | int n => rfl
    | float => rfl
    | str s => rfl
    | list l => rfl
  · intro loads exec cfg s recs
    rfl

theorem nonobject_args_spec_witness :
    payloadArguments (PyVal.dict [(toolNameKey, PyVal.str "add".data),
      (argumentsKey, PyVal.list [PyVal.int 1, PyVal.int 2])]) = [] :=
  nonobject_args_spec.1
    [(toolNameKey, PyVal.str "add".data),
      (argumentsKey, PyVal.list [PyVal.int 1, PyVal.int 2])]
    (PyVal.list [PyVal.int 1, PyVal.int 2]) rfl
    (fun _ h => PyVal.noConfusion h)

/-! ## Claim C10 — trimming happens once per turn -/

theorem runToolRounds_extends (rounds : List (List Char × List Char)) :
    ∀ ctx : List Msg, ctx <+: runToolRounds rounds ctx := by
  induction rounds with
  | nil => intro ctx; exact List.prefix_refl ctx
  | cons p rest ih =>
    intro ctx
    obtain ⟨a, r⟩ := p
    exact (ctx.prefix_append _).trans (ih _)

/-- C10: within one user turn the token-budget trim runs exactly once,
before generation starts — the final context is literally the tool
rounds and the final answer appended to the once-trimmed context; the
two messages appended per tool round are never evicted during the turn
(the trimmed pre-generation context is a prefix of the final context);
and consequently the context's token count can exceed the configured
maximum by the end of a turn containing tool calls. -/
theorem process_user_input_trim_once_spec :
    (∀ (num_tokens : List Msg → Nat) (max_tokens_ctx : Nat)
        (bootstrap user_input : List Char) (messages : List Msg)
        (rounds : List (List Char × List Char)) (final_answer : List Char),
      process_user_input num_tokens max_tokens_ctx bootstrap user_input
          messages rounds final_answer
        = runToolRounds rounds
            (trim_context num_tokens max_tokens_ctx
              (if messages.isEmpty then [⟨"system".data, bootstrap⟩]
               else messages ++ [⟨"user".data, user_input⟩]))
          ++ [⟨"assistant".data, final_answer⟩])
    ∧ (∀ (num_tokens : List Msg → Nat) (max_tokens_ctx : Nat)
        (bootstrap user_input : List Char) (messages : List Msg)
        (rounds : List (List Char × List Char)) (final_answer : List Char),
      trim_context num_tokens max_tokens_ctx
          (if messages.isEmpty then [⟨"system".data, bootstrap⟩]
           else messages ++ [⟨"user".data, user_input⟩])
        <+: process_user_input num_tokens max_tokens_ctx bootstrap
              user_input messages rounds final_answer)
    ∧ (∃ (num_tokens : List Msg → Nat) (max_tokens_ctx : Nat)
        (bootstrap user_input : List Char) (messages : List Msg)
        (rounds : List (List Char × List Char)) (final_answer : List Char),
      num_tokens (process_user_input num_tokens max_tokens_ctx bootstrap
          user_input messages rounds final_answer) > max_tokens_ctx) := by
  refine ⟨fun _ _ _ _ _ _ _ => rfl, ?_, ?_⟩
  · intro num_tokens max_tokens_ctx bootstrap user_input messages rounds
      final_answer
    exact (runToolRounds_extends rounds _).trans (List.prefix_append _ _)
  · refine ⟨List.length, 1, "B".data, "u".data, [],
      [("a".data, "r".data)], "done".data, ?_⟩
    have htrim : trim_context List.length 1
        [(⟨"system".data, "B".data⟩ : Msg)]
        = [⟨"system".data, "B".data⟩] := by
      rw [trim_context]
      exact dif_neg (fun hcontra => by
        have := hcontra.2
        simp at this)
    show List.length (process_user_input List.length 1 "B".data "u".data []
      [("a".data, "r".data)] "done".data) > 1
    have hproc : process_user_input List.length 1 "B".data "u".data []
        [("a".data, "r".data)] "done".data
        = runToolRounds [("a".data, "r".data)]
            (trim_context List.length 1 [⟨"system".data, "B".data⟩])
          ++ [⟨"assistant".data, "done".data⟩] := rfl
    rw [hproc, htrim]
    simp [runToolRounds]

end Jiki
